import Mathlib

/-!
# Verification of the `icache_sim` set-associative LRU cache simulator

This file gives a shallow embedding of the core of the simulator — the LRU
cache (`src/lru.rs`), the trace DSL expansion (`src/trace.rs`), the trace
validation (`TraceFile::try_from`), the range/integer parsing fragments, and
the per-trace simulation fold (`src/simulation.rs`) — and proves or refutes
the specification claims about them.

Machine integers (`usize`) are modelled as `Nat`; every place where the Rust
code can panic (integer `ilog2(0)`, remainder by zero, `Option::unwrap`,
out-of-bounds indexing) is modelled explicitly as an `Option`/error value.
The `rand` crate's `StdRng` is external to the repository and is modelled as
a deterministic stream of draws keyed by the seed; the only property the
code relies on is that `random_range(0..=n)` returns a value in `[0, n]`
deterministically from the generator state.
-/

namespace ICacheSim

/-- Outcome of a single cache access (`CacheHit` in `src/simulation.rs`). -/
inductive CacheHit where
  | Hit : CacheHit
  | Miss (prev : Option Nat) : CacheHit
deriving DecidableEq, Repr

/-- One cache line (`CacheLine` in `src/lru.rs`): the optional byte address of
its occupant (diagnostic only) and the optional tag. -/
structure CacheLine where
  address : Option Nat
  tag : Option Nat
deriving DecidableEq, Repr

/-- One cache set (`CacheSet` in `src/lru.rs`): `LINES` cache lines and the
LRU order, a `VecDeque` of line indices with the least recently used line at
the front and the most recently used at the back. -/
structure CacheSet where
  lines : List CacheLine
  lru : List Nat
deriving DecidableEq, Repr

/-- The `CacheSet::new` (`src/lru.rs` lines 93-101): all lines empty, LRU order
`[0, 1, …, LINES−1]`. -/
def CacheSet.new (LINES : Nat) : CacheSet :=
  { lines := List.replicate LINES { address := none, tag := none }
    lru := List.range LINES }

/-- The hit branch of `CacheSet::get` (`src/lru.rs` lines 112-124): the found
line index is removed from the LRU order at its current position
(`find` + `remove`, i.e. first occurrence) and pushed to the back (most
recently used).  `none` models the `unwrap` panic when the index is missing
from the LRU order. -/
def CacheSet.hitUpdate (s : CacheSet) (line_idx : Nat) : Option (CacheSet × CacheHit) :=
  if s.lru.contains line_idx then
    some ({ s with lru := s.lru.erase line_idx ++ [line_idx] }, .Hit)
  else
    none

/-- The line overwrite of the miss branch (`src/lru.rs` lines 131-137):
read the previous occupant's address, overwrite the line, report
`Miss { prev }`.  `none` models the panic on out-of-bounds line indexing. -/
def CacheSet.fillLine (s : CacheSet) (address tag lru_idx : Nat) (lru_rest : List Nat) :
    Option (CacheSet × CacheHit) :=
  match s.lines[lru_idx]? with
  | none => none
  | some prev_line =>
    some ({ lines := s.lines.set lru_idx { address := some address, tag := some tag }
            lru := lru_rest ++ [lru_idx] },
          .Miss prev_line.address)

/-- The miss branch of `CacheSet::get` (`src/lru.rs` lines 126-138): pop the
front (least recently used) index, push it to the back, overwrite its line.
`none` models the `pop_front().unwrap()` panic on an empty deque. -/
def CacheSet.missUpdate (s : CacheSet) (address tag : Nat) : Option (CacheSet × CacheHit) :=
  match s.lru with
  | [] => none
  | lru_idx :: lru_rest => s.fillLine address tag lru_idx lru_rest

/-- The `CacheSet::get` (`src/lru.rs` lines 103-140): linear search for a line
with the given tag, then the hit or miss branch. -/
def CacheSet.get (s : CacheSet) (address tag : Nat) : Option (CacheSet × CacheHit) :=
  match s.lines.enum.find? (fun p => p.2.tag == some tag) with
  | some (line_idx, _) => s.hitUpdate line_idx
  | none => s.missUpdate address tag

/-- The whole cache (`LruCache` in `src/lru.rs`): derived widths and the sets. -/
structure LruCache where
  offset_width : Nat
  set_index_width : Nat
  set_index_mask : Nat
  sets : List CacheSet
deriving DecidableEq, Repr

/-- The `usize::ilog2` for positive arguments (floor of the base-2 logarithm),
with a structural counter so that it evaluates by kernel reduction. -/
def ilog2_go : Nat → Nat → Nat
  | 0, _ => 0
  | fuel + 1, n => if 2 ≤ n then ilog2_go fuel (n / 2) + 1 else 0

/-- The `usize::ilog2` (the caller guards the zero case, where Rust panics). -/
def ilog2 (n : Nat) : Nat :=
  ilog2_go n n

/-- The `required_bits` (`src/lru.rs` lines 22-24): `(i - 1).ilog2() as usize + 1`.
`none` models the Rust panics: for `i = 0` the subtraction `0usize - 1`
overflows, and for `i = 1` the call `0.ilog2()` panics (integer logarithm of
zero). -/
def required_bits (i : Nat) : Option Nat :=
  if i ≤ 1 then none else some (ilog2 (i - 1) + 1)

/-- The `LruCache::new` (`src/lru.rs` lines 19-46).  Computes the offset and set
index widths with `required_bits`, asserts the bit budget
`required_bits(SETS) + required_bits(LINE_SIZE) ≤ 64` (the word width of
`usize`), and builds the mask `!(!0usize << set_index_width)`, i.e.
`2 ^ set_index_width − 1`.  `none` models a panic inside `required_bits` or a
failed assertion. -/
def LruCache.new (SETS WAYS LINE_SIZE : Nat) : Option LruCache := do
  let offset_width ← required_bits LINE_SIZE
  let set_index_width ← required_bits SETS
  if set_index_width + offset_width ≤ 64 then
    some { offset_width := offset_width
           set_index_width := set_index_width
           set_index_mask := 2 ^ set_index_width - 1
           sets := List.replicate SETS (CacheSet.new WAYS) }
  else
    none

/-- The `LruCache::get` (`src/lru.rs` lines 77-84): decompose the address into
set index and tag, delegate to the indexed set (`self.sets[set_index]`
panics when out of bounds: `none`), and write the mutated set back. -/
def LruCache.get (c : LruCache) (address : Nat) : Option (LruCache × CacheHit) :=
  let set_index := (address >>> c.offset_width) &&& c.set_index_mask
  let tag := address >>> (c.set_index_width + c.offset_width)
  (c.sets[set_index]?).bind (fun s =>
    (s.get address tag).map (fun p => ({ c with sets := c.sets.set set_index p.1 }, p.2)))

/-- Modelled from the spec: `LruCache::reset` is called by
`Simulation::simulate` (`src/simulation.rs` line 45) but the version of
`src/lru.rs` in the repository does not contain it; §4.4 of the spec defines
it as "empty every line and restore LRU order to the identity permutation". -/
def LruCache.reset (c : LruCache) : LruCache :=
  { c with sets := c.sets.map (fun s => CacheSet.new s.lines.length) }

/-- The set index `LruCache::get` computes for an address. -/
def LruCache.setIndexOf (c : LruCache) (address : Nat) : Nat :=
  (address >>> c.offset_width) &&& c.set_index_mask

/-! ## The trace DSL (`src/trace.rs`)

A `Block` is its list of ops; a `SwitchCase` is its `(weight, block)` pair;
a `Function` is its block. -/

/-- The `Op` AST (`src/trace.rs` lines 185-207).  `Block` and `SwitchCase`
are inlined as `List Op` and `Nat × List Op`. -/
inductive Op where
  | Range (addr_start addr_size addr_end : Nat)
  | FunctionCall (function_name : String)
  | Loop (count : Nat) (block : List Op)
  | Switch (cases : List (Nat × List Op))
deriving Repr

/-- The function-name → function map of a trace.  The Rust `HashMap` with
unique keys is modelled as an association list looked up by first match. -/
abbrev Functions := List (String × List Op)

/-- The `HashMap::get` on the function map. -/
def lookupFn : Functions → String → Option (List Op)
  | [], _ => none
  | (n, b) :: rest, f => if n = f then some b else lookupFn rest f

/-- A named trace (`Trace` in `src/trace.rs` lines 46-51). -/
structure Trace where
  name : String
  functions : Functions
  block : List Op

/-- Modelled from the spec: `StdRng` comes from the external `rand` crate
(not part of this repository).  §4.3: each expansion uses a dedicated PRNG
seeded with the fixed constant 0, and `random_range(0..=n)` draws a value in
the inclusive interval `[0, n]` deterministically from the generator state.
The generator is modelled as the seed plus a draw counter; the draw value is
an arbitrary deterministic mix reduced into range by `% (n + 1)`. -/
structure StdRng where
  seed : Nat
  counter : Nat
deriving DecidableEq, Repr

/-- The `StdRng::seed_from_u64`. -/
def StdRng.seed_from_u64 (seed : Nat) : StdRng :=
  { seed := seed, counter := 0 }

/-- The `rng.random_range(0..=upper)`: a value in `[0, upper]` plus the advanced
generator. -/
def StdRng.random_range (rng : StdRng) (upper : Nat) : Nat × StdRng :=
  (((rng.seed + rng.counter + 1) * 2654435761) % (upper + 1),
   { rng with counter := rng.counter + 1 })

/-- Rust's `(start..end).step_by(k)` iterator: `start, start+k, …` while
below `stop`, via a structural counter (`stop - start` bounds the number of
elements since `k ≥ 1`). -/
def step_by_go : Nat → Nat → Nat → Nat → List Nat
  | 0, _, _, _ => []
  | fuel + 1, start, stop, k =>
    if start < stop then start :: step_by_go fuel (start + k) stop k else []

/-- The `(start..stop).step_by(k)` as used by the `Range` arm of
`Trace::into_iter` (`src/trace.rs` line 137).  Rust panics when `k = 0`; the
caller guards that case. -/
def step_by (start stop k : Nat) : List Nat :=
  step_by_go (stop - start) start stop k

/-- The queue contents pushed by `Loop { count, block }`
(`src/trace.rs` lines 142-146): `count` copies of the body, in order. -/
def repeatBlock : Nat → List Op → List Op
  | 0, _ => []
  | n + 1, ops => ops ++ repeatBlock n ops

/-- Insert a `(index, weight)` pair into a sorted list, before the first pair
of weight `≥` its own: the classical stable insertion. -/
def insertPair (p : Nat × Nat) : List (Nat × Nat) → List (Nat × Nat)
  | [] => [p]
  | q :: rest => if p.2 ≤ q.2 then p :: q :: rest else q :: insertPair p rest

/-- Stable sort of `(index, weight)` pairs ascending by weight.  Rust's
`sort_by` with `a.partial_cmp(b)` on `usize` weights is a stable ascending
sort; any stable sort computes the same permutation, so an insertion sort is
used here. -/
def sortPairs : List (Nat × Nat) → List (Nat × Nat)
  | [] => []
  | p :: rest => insertPair p (sortPairs rest)

/-- The `cases.iter().enumerate().map(|(i, case)| (i, case.weight))` starting at
index `j`. -/
def casePairsFrom (j : Nat) : List (Nat × List Op) → List (Nat × Nat)
  | [] => []
  | c :: cs => (j, c.1) :: casePairsFrom (j + 1) cs

/-- The `(index, weight)` pairs of the switch cases in source order
(`src/trace.rs` lines 148-152). -/
def casePairs (cases : List (Nat × List Op)) : List (Nat × Nat) :=
  casePairsFrom 0 cases

/-- The sorted `weights` vector of the `Switch` arm (`src/trace.rs` line 153). -/
def sortedWeights (cases : List (Nat × List Op)) : List (Nat × Nat) :=
  sortPairs (casePairs cases)

/-- The `total_weights` (`src/trace.rs` line 155): sum of the sorted weights. -/
def totalWeights (cases : List (Nat × List Op)) : Nat :=
  ((sortedWeights cases).map (fun p => p.2)).sum

/-- The selection walk of the `Switch` arm (`src/trace.rs` lines 158-165):
running sum over the sorted pairs, first index whose running sum is `≥ r`. -/
def pickIndex : List (Nat × Nat) → Nat → Nat → Option Nat
  | [], _, _ => none
  | (i, w) :: rest, s, r => if s + w ≥ r then some i else pickIndex rest (s + w) r

/-- Result of running the expansion work loop to completion. -/
inductive ExpandResult where
  | ok (addresses : List Nat)
  | panicked
  | outOfFuel
deriving DecidableEq, Repr

/-- The work-stack loop of `Trace::into_iter` (`src/trace.rs` lines 126-171),
one list cell per `queue.pop()`.  The queue is modelled with the next op to
be popped at the head, so `queue.extend(ops.iter().rev())` is `ops ++ queue`.
`fuel` bounds the number of loop iterations (the Rust loop can diverge on
recursive function calls); `.outOfFuel` is returned when it is exhausted and
`.panicked` models the Rust panics: `unwrap` on an unknown function name,
`step_by(0)` (when `addr_size / 8 = 0`), and `cases.get(i).unwrap()` out of
bounds. -/
def run (fns : Functions) : Nat → List Op → List Nat → StdRng → ExpandResult
  | _, [], addresses, _ => .ok addresses
  | 0, _ :: _, _, _ => .outOfFuel
  | fuel + 1, op :: queue, addresses, rng =>
    match op with
    | .Range addr_start addr_size addr_end =>
      if addr_size / 8 = 0 then
        .panicked
      else
        run fns fuel queue (addresses ++ step_by addr_start addr_end (addr_size / 8)) rng
    | .FunctionCall function_name =>
      match lookupFn fns function_name with
      | none => .panicked
      | some body => run fns fuel (body ++ queue) addresses rng
    | .Loop count block =>
      run fns fuel (repeatBlock count block ++ queue) addresses rng
    | .Switch cases =>
      let drawn := rng.random_range (totalWeights cases)
      match pickIndex (sortedWeights cases) 0 drawn.1 with
      | none => run fns fuel queue addresses drawn.2
      | some i =>
        match cases[i]? with
        | none => .panicked
        | some c => run fns fuel (c.2 ++ queue) addresses drawn.2

/-- The `Trace::into_iter` (`src/trace.rs` lines 126-171): seed a fresh `StdRng`
with the constant `0`, start from the trace's own block and an empty address
list, and run the work loop. -/
def Trace.intoIter (t : Trace) (fuel : Nat) : ExpandResult :=
  run t.functions fuel t.block [] (StdRng.seed_from_u64 0)

/-- The `Trace::into_iter` as invoked in an environment: `ambient` is the PRNG
state the invocation could have drawn on (e.g. OS entropy at call time).
The source ignores any ambient randomness — it constructs
`StdRng::seed_from_u64(0)` itself — so the parameter is unused. -/
def Trace.intoIterInvocation (ambient : StdRng) (t : Trace) (fuel : Nat) : ExpandResult :=
  run t.functions fuel t.block [] (StdRng.seed_from_u64 0)

/-! ## The simulation driver (`src/simulation.rs`) -/

/-- An instruction access: a byte address and a length in bits.
`Simulation::simulate` (`src/simulation.rs` lines 54-71) reads
`instruction.address` and `instruction.length` off the items yielded by the
trace iterator. -/
structure Instruction where
  address : Nat
  length : Nat
deriving DecidableEq, Repr

/-- Per-trace counters (`Simulation` in `src/simulation.rs` lines 11-16). -/
structure Simulation where
  name : String
  hit_count : Nat
  miss_count : Nat
deriving DecidableEq, Repr

/-- Whether the access outcome is `CacheHit::Hit`
(the `== CacheHit::Hit` comparison on `src/simulation.rs` line 61). -/
def CacheHit.isHit : CacheHit → Bool
  | .Hit => true
  | .Miss _ => false

/-- The inner byte loop of `Simulation::simulate` (`src/simulation.rs` lines
59-62): for each `i` in the list, issue `lru_cache.get(address + i)` and fold
the outcome into `hit` with `&=` (every access is issued even after a miss).
`none` propagates a cache panic. -/
def accessBytes (cache : LruCache) (address : Nat) :
    List Nat → Bool → Option (LruCache × Bool)
  | [], hit => some (cache, hit)
  | i :: is, hit =>
    match cache.get (address + i) with
    | none => none
    | some (cache2, outcome) => accessBytes cache2 address is (hit && outcome.isHit)

/-- One instruction of the fold in `Simulation::simulate` (`src/simulation.rs`
lines 54-71): issue the `length / 8` byte accesses in ascending order, then
increment exactly one of the two counters. -/
def simulateStep (cache : LruCache) (sim : Simulation) (instr : Instruction) :
    Option (LruCache × Simulation) :=
  match accessBytes cache instr.address (List.range (instr.length / 8)) true with
  | none => none
  | some (cache2, hit) =>
    if hit then
      some (cache2, { sim with hit_count := sim.hit_count + 1 })
    else
      some (cache2, { sim with miss_count := sim.miss_count + 1 })

/-- The fold of `Simulation::simulate` over the expanded instruction stream. -/
def simulateTrace (cache : LruCache) (sim : Simulation) :
    List Instruction → Option (LruCache × Simulation)
  | [] => some (cache, sim)
  | instr :: rest =>
    match simulateStep cache sim instr with
    | none => none
    | some (cache2, sim2) => simulateTrace cache2 sim2 rest

/-- The per-trace part of `Simulation::simulate` (`src/simulation.rs` lines
44-72): reset the cache, zero the counters, fold over the instructions. -/
def Simulation.simulate (cache : LruCache) (name : String)
    (instrs : List Instruction) : Option (LruCache × Simulation) :=
  simulateTrace cache.reset { name := name, hit_count := 0, miss_count := 0 } instrs

/-- The number of byte-level `lru_cache.get` calls `Simulation::simulate`
issues for one instruction: the byte loop runs `instruction.length / 8`
times, one `get` per iteration (`src/simulation.rs` lines 60-62). -/
def instrGetCalls (instr : Instruction) : Nat :=
  instr.length / 8

/-- Total number of byte-level `get` calls issued for an instruction list. -/
def traceGetCalls (instrs : List Instruction) : Nat :=
  (instrs.map instrGetCalls).sum

/-- Modelled from the spec: the trace iterator consumed by
`Simulation::simulate` yields `Instruction { address, length }` values, but
the copy of `src/trace.rs` in the repository yields bare addresses.  §3 and
§4.3 of the spec: a `Range` expands to instructions at
`start, start + instr_len_bits/8, …`, each carrying `instr_len_bits`; the
other ops drive the same work stack as `run`.  `none` covers both panics and
fuel exhaustion. -/
def runInstr (fns : Functions) :
    Nat → List Op → List Instruction → StdRng → Option (List Instruction)
  | _, [], instrs, _ => some instrs
  | 0, _ :: _, _, _ => none
  | fuel + 1, op :: queue, instrs, rng =>
    match op with
    | .Range addr_start addr_size addr_end =>
      if addr_size / 8 = 0 then
        none
      else
        runInstr fns fuel queue
          (instrs ++ (step_by addr_start addr_end (addr_size / 8)).map
            (fun a => { address := a, length := addr_size }))
          rng
    | .FunctionCall function_name =>
      match lookupFn fns function_name with
      | none => none
      | some body => runInstr fns fuel (body ++ queue) instrs rng
    | .Loop count block =>
      runInstr fns fuel (repeatBlock count block ++ queue) instrs rng
    | .Switch cases =>
      let drawn := rng.random_range (totalWeights cases)
      match pickIndex (sortedWeights cases) 0 drawn.1 with
      | none => runInstr fns fuel queue instrs drawn.2
      | some i =>
        match cases[i]? with
        | none => none
        | some c => runInstr fns fuel (c.2 ++ queue) instrs drawn.2

/-- The instruction stream of a trace, `Instruction`-yielding variant of
`Trace.intoIter` (see `runInstr`). -/
def Trace.intoIterInstr (t : Trace) (fuel : Nat) : Option (List Instruction) :=
  runInstr t.functions fuel t.block [] (StdRng.seed_from_u64 0)

/-! ## Validation (`TraceFile::try_from`, `src/trace.rs` lines 59-120) -/

mutual

/-- Whether one op of a trace block passes the unknown-function scan of
`TraceFile::try_from` (`src/trace.rs` lines 86-107).  The work queue visits
`FunctionCall` targets, `Loop` bodies and `Switch` case bodies of the trace
blocks; it does **not** descend into the bodies of defined functions. -/
def checkOp (functions : Functions) : Op → Bool
  | .Range _ _ _ => true
  | .FunctionCall function_name => (lookupFn functions function_name).isSome
  | .Loop _ block => checkOps functions block
  | .Switch cases => checkCases functions cases

/-- The `checkOp` over a block. -/
def checkOps (functions : Functions) : List Op → Bool
  | [] => true
  | op :: ops => checkOp functions op && checkOps functions ops

/-- The `checkOp` over switch cases. -/
def checkCases (functions : Functions) : List (Nat × List Op) → Bool
  | [] => true
  | c :: cs => checkOps functions c.2 && checkCases functions cs

end

/-- Whether the function list contains a name twice (the duplicate check of
`TraceFile::try_from`, `src/trace.rs` lines 74-82). -/
def dupName : Functions → Bool
  | [] => false
  | (n, _) :: rest => (lookupFn rest n).isSome || dupName rest

/-- The post-parse part of `TraceFile::try_from` (`src/trace.rs` lines
62-119): reject duplicate function definitions, scan the trace blocks (and
only the trace blocks) for calls to undefined functions, then pair every
trace block with the full function map. -/
def TraceFile.tryFrom (function_list : Functions)
    (trace_blocks : List (String × List Op)) : Except String (List Trace) :=
  if dupName function_list then
    .error ("function defined multiple times")
  else if trace_blocks.all (fun tb => checkOps function_list tb.2) then
    .ok (trace_blocks.map (fun tb =>
      { name := tb.1, functions := function_list, block := tb.2 }))
  else
    .error ("unknown function")

/-! ## The `range` combinator (`src/trace.rs` lines 276-304) -/

/-- Outcome of the semantic checks of the `range` combinator. -/
inductive RangeCheck where
  | ok (op : Op)
  | err (label : String)
  | panicked
deriving Repr

/-- The semantic checks the `range` combinator runs on the three parsed
integers (`src/trace.rs` lines 283-304).  An empty range is a parse error; a
non-empty range is then subjected to
`(addr_end - addr_start) % (addr_size / 8)` — when `addr_size < 8` the
divisor `addr_size / 8` is zero and the Rust remainder **panics**
(`.panicked`); otherwise a non-zero remainder is a parse error, and anything
else is accepted as `Op::Range` with no check that `addr_size` is a positive
multiple of 8. -/
def range_check (addr_start addr_size addr_end : Nat) : RangeCheck :=
  if addr_start ≥ addr_end then
    .err ("range: range is empty")
  else if addr_size / 8 = 0 then
    .panicked
  else if (addr_end - addr_start) % (addr_size / 8) ≠ 0 then
    .err ("range: instruction size does not cleanly fit in range")
  else
    .ok (.Range addr_start addr_size addr_end)

/-! ## Integer lexing (`integer` / `decimal_integer`, `src/trace.rs` lines
353-385) and the numeric fragments of `looop` and `switch_case`.

Parsers consume a `List Char` and return the value plus the rest of the
input; `none` is a parse failure (winnow's backtrack and cut errors both end
the fragments modelled here). -/

/-- The `take_while(1.., pred)`: the longest non-empty prefix satisfying `pred`. -/
def takeWhile1 (pred : Char → Bool) (s : List Char) : Option (List Char × List Char) :=
  match s.takeWhile pred with
  | [] => none
  | ds => some (ds, s.dropWhile pred)

/-- Hex digit as accepted by the `0x` branch: `0-9`, `a-f`, `A-F`. -/
def isHexDigit (c : Char) : Bool :=
  c.isDigit || ('a' ≤ c && c ≤ 'f') || ('A' ≤ c && c ≤ 'F')

/-- Binary digit, `0b` branch. -/
def isBinDigit (c : Char) : Bool :=
  c = '0' || c = '1'

/-- Octal digit, `0o` branch. -/
def isOctDigit (c : Char) : Bool :=
  '0' ≤ c && c ≤ '7'

/-- Value of a (hex) digit character. -/
def digitVal (c : Char) : Nat :=
  if c.isDigit then c.toNat - '0'.toNat
  else if 'a' ≤ c && c ≤ 'f' then c.toNat - 'a'.toNat + 10
  else c.toNat - 'A'.toNat + 10

/-- The `usize::from_str_radix` / `str::parse::<usize>` on a digit string
(overflow cannot occur over `Nat`). -/
def digitsToNat (radix : Nat) (ds : List Char) : Nat :=
  ds.foldl (fun acc c => acc * radix + digitVal c) 0

/-- The `integer` combinator (`src/trace.rs` lines 353-378): a `0x`, `0b` or
`0o` prefix commits to hex / binary / octal digits (`cut_err`: a prefix with
no digit is a hard error, never reinterpreted as decimal `0`), otherwise one
or more decimal digits. -/
def integer (s : List Char) : Option (Nat × List Char) :=
  if s.take 2 = ['0', 'x'] then
    (takeWhile1 isHexDigit (s.drop 2)).map (fun p => (digitsToNat 16 p.1, p.2))
  else if s.take 2 = ['0', 'b'] then
    (takeWhile1 isBinDigit (s.drop 2)).map (fun p => (digitsToNat 2 p.1, p.2))
  else if s.take 2 = ['0', 'o'] then
    (takeWhile1 isOctDigit (s.drop 2)).map (fun p => (digitsToNat 8 p.1, p.2))
  else
    (takeWhile1 Char.isDigit s).map (fun p => (digitsToNat 10 p.1, p.2))

/-- The `decimal_integer` combinator (`src/trace.rs` lines 380-385): one or
more decimal digits, no radix prefixes. -/
def decimal_integer (s : List Char) : Option (Nat × List Char) :=
  (takeWhile1 Char.isDigit s).map (fun p => (digitsToNat 10 p.1, p.2))

/-- The `space` combinator (`src/trace.rs` lines 394-399): spaces/tabs, an
optional `//` comment to end of line, spaces/tabs. -/
def space_p (s : List Char) : List Char :=
  let s1 := s.dropWhile (fun c => c = ' ' || c = '\t')
  if s1.take 2 = ['/', '/'] then
    ((s1.drop 2).dropWhile (fun c => !(c = '\n' || c = '\r'))).dropWhile
      (fun c => c = ' ' || c = '\t')
  else
    s1

/-- One pass of the `multispace` combinator (`src/trace.rs` lines 401-410):
whitespace plus repeated `//` comments; the repetition is bounded by the
input length. -/
def multispace_go : Nat → List Char → List Char
  | 0, s => s
  | fuel + 1, s =>
    let s1 := s.dropWhile (fun c => c = ' ' || c = '\t' || c = '\n' || c = '\r')
    if s1.take 2 = ['/', '/'] then
      multispace_go fuel ((s1.drop 2).dropWhile (fun c => !(c = '\n' || c = '\r')))
    else
      s1

/-- The `multispace` combinator. -/
def multispace_p (s : List Char) : List Char :=
  multispace_go s.length s

/-- The `end` combinator (`src/trace.rs` lines 387-392): optional
space/comment, then a line ending or end of input, then `multispace`. -/
def end_p (s : List Char) : Option (List Char) :=
  match space_p s with
  | [] => some []
  | '\n' :: rest => some (multispace_p rest)
  | '\r' :: '\n' :: rest => some (multispace_p rest)
  | _ => none

/-- The `range_inner` (`src/trace.rs` lines 277-279):
`integer ".." integer ".." integer` terminated by `end`. -/
def range_inner (s : List Char) : Option ((Nat × Nat × Nat) × List Char) :=
  match integer s with
  | none => none
  | some (addr_start, s1) =>
    match s1 with
    | '.' :: '.' :: s2 =>
      match integer s2 with
      | none => none
      | some (addr_size, s3) =>
        match s3 with
        | '.' :: '.' :: s4 =>
          match integer s4 with
          | none => none
          | some (addr_end, s5) =>
            (end_p s5).map (fun rest => ((addr_start, addr_size, addr_end), rest))
        | _ => none
    | _ => none

/-- The loop-count fragment of `looop` (`src/trace.rs` line 317):
`delimited((space, '(', space), decimal_integer, (space, ')', space))`.
Inside `cut_err`, so any failure here is a hard parse error for the whole
file. -/
def loop_count (s : List Char) : Option (Nat × List Char) :=
  match space_p s with
  | '(' :: s1 =>
    match decimal_integer (space_p s1) with
    | none => none
    | some (count, s2) =>
      match space_p s2 with
      | ')' :: s3 => some (count, space_p s3)
      | _ => none
  | _ => none

/-- The weight fragment of `switch_case` (`src/trace.rs` line 344):
the same `delimited((space, '(', space), decimal_integer, (space, ')',
space))` shape as `loop_count`. -/
def switch_weight (s : List Char) : Option (Nat × List Char) :=
  match space_p s with
  | '(' :: s1 =>
    match decimal_integer (space_p s1) with
    | none => none
    | some (weight, s2) =>
      match space_p s2 with
      | ')' :: s3 => some (weight, space_p s3)
      | _ => none
  | _ => none

/-! ## Basic facts about the expansion work loop -/

/-- An empty queue yields the accumulated addresses for any fuel. -/
theorem run_nil (fns : Functions) (fuel : Nat) (addrs : List Nat) (rng : StdRng) :
    run fns fuel [] addrs rng = .ok addrs := by
  cases fuel <;> rfl

/-- Fuel monotonicity: a completed expansion is stable under extra fuel. -/
theorem run_mono (fns : Functions) :
    ∀ (n : Nat) (q : List Op) (addrs : List Nat) (rng : StdRng) (k : Nat) (res : List Nat),
      run fns n q addrs rng = .ok res → run fns (n + k) q addrs rng = .ok res := by
  intro n
  induction n with
  | zero =>
    intro q addrs rng k res h
    cases q with
    | nil =>
      rw [run_nil] at h
      rw [run_nil]
      exact h
    | cons op rest => simp [run] at h
  | succ n ih =>
    intro q addrs rng k res h
    cases q with
    | nil =>
      rw [run_nil] at h
      rw [run_nil]
      exact h
    | cons op rest =>
      have hadd : n + 1 + k = (n + k) + 1 := by omega
      rw [hadd]
      cases op with
      | Range addr_start addr_size addr_end =>
        by_cases hsz : addr_size / 8 = 0
        · simp [run, hsz] at h
        · simp only [run, hsz, if_false, if_neg hsz] at h ⊢
          exact ih _ _ _ _ _ h
      | FunctionCall f =>
        cases hl : lookupFn fns f with
        | none => simp [run, hl] at h
        | some body =>
          simp only [run, hl] at h ⊢
          exact ih _ _ _ _ _ h
      | Loop count block =>
        simp only [run] at h ⊢
        exact ih _ _ _ _ _ h
      | Switch cases =>
        simp only [run] at h ⊢
        cases hp : pickIndex (sortedWeights cases) 0
            (StdRng.random_range rng (totalWeights cases)).1 with
        | none =>
          simp only [hp] at h ⊢
          exact ih _ _ _ _ _ h
        | some i =>
          simp only [hp] at h ⊢
          cases hc : cases[i]? with
          | none => simp [hc] at h
          | some c =>
            simp only [hc] at h ⊢
            exact ih _ _ _ _ _ h

/-- Expansion results are unique across fuels: the sequence an expansion
completes with does not depend on how much fuel it was given. -/
theorem run_ok_unique (fns : Functions) (n m : Nat) (q : List Op) (addrs : List Nat)
    (rng : StdRng) (res₁ res₂ : List Nat)
    (h₁ : run fns n q addrs rng = .ok res₁) (h₂ : run fns m q addrs rng = .ok res₂) :
    res₁ = res₂ := by
  have e₁ := run_mono fns n q addrs rng m res₁ h₁
  have e₂ := run_mono fns m q addrs rng n res₂ h₂
  rw [Nat.add_comm m n] at e₂
  rw [e₁] at e₂
  exact (ExpandResult.ok.injEq _ _).mp e₂

/-! ## C1 — cache construction at the edge parameters -/

/-- C1: the claim says `LruCache::new` succeeds for every power-of-two
parameter combination within the bit budget, including `SETS = 1` and
`LINE_SIZE = 1`.  In the code, `required_bits(1)` evaluates `(1-1).ilog2()`,
i.e. `ilog2(0)`, which panics (a compile-time error inside the `const`
assertion block), so construction fails whenever `SETS = 1` or
`LINE_SIZE = 1`, while ordinary parameters (the default `128/4/64` included)
succeed. -/
theorem C1_new_panics_for_sets_one_or_line_size_one :
    LruCache.new 1 4 64 = none ∧ LruCache.new 128 4 1 = none ∧
    LruCache.new 4 1 1 = none ∧ LruCache.new 128 4 64 ≠ none := by
  refine ⟨rfl, rfl, rfl, ?_⟩
  decide

/-! ## C7 — the `range` well-formedness checks -/

/-- C7: the claim says every `Range` whose `instr_len_bits` is not a positive
multiple of 8 is rejected with an error.  The code never checks that:
`0..4..8` panics (the remainder divisor `addr_size / 8` is zero) instead of
returning an error, and `0..12..6` (12 is not a multiple of 8) is accepted.
The two checks the code does perform (`start < end`, divisibility of the
range length) behave as specified. -/
theorem C7_range_size_not_multiple_of_8_not_rejected :
    range_check 0 4 8 = .panicked ∧
    range_check 0 12 6 = .ok (.Range 0 12 6) ∧
    range_check 8 8 8 = .err ("range: range is empty") ∧
    range_check 0 16 3 = .err ("range: instruction size does not cleanly fit in range") ∧
    range_check 0 8 16 = .ok (.Range 0 8 16) :=
  ⟨rfl, rfl, rfl, rfl, rfl⟩

/-! ## C3 — validation does not scan function bodies -/

/-- A function `f` whose body calls the undefined function `g`. -/
def fnsC3 : Functions := [("f", [Op.FunctionCall ("g")])]

/-- A trace block that calls the defined function `f`. -/
def traceC3 : Trace :=
  { name := "t", functions := fnsC3, block := [Op.FunctionCall ("f")] }

/-- C3: the claim says a call to an undefined function inside the body of a
defined function is rejected at validation.  The unknown-function scan of
`TraceFile::try_from` walks only the trace blocks (`src/trace.rs` lines
86-107) and never the bodies of defined functions, so the file
`fn f() { g() }  't' { f() }` validates successfully — and its expansion
then panics on the `unwrap` of the missing entry for `g`. -/
theorem C3_validation_misses_call_in_function_body :
    TraceFile.tryFrom fnsC3 [("t", [Op.FunctionCall ("f")])] = .ok [traceC3] ∧
    traceC3.intoIter 2 = .panicked :=
  ⟨rfl, rfl⟩

/-! ## C5 — determinism of expansion -/

/-- C5: two independent expansions of equal traces are identical.
`Trace::into_iter` constructs its own `StdRng::seed_from_u64(0)` and
consults no other source of randomness, so the result of an invocation is
independent of whatever ambient PRNG state the invocation could have drawn
on, and both invocations equal the canonical expansion. -/
theorem C5_expansion_deterministic (t : Trace) (fuel : Nat) (a₁ a₂ : StdRng) :
    Trace.intoIterInvocation a₁ t fuel = Trace.intoIterInvocation a₂ t fuel ∧
    Trace.intoIterInvocation a₁ t fuel = t.intoIter fuel :=
  ⟨rfl, rfl⟩

/-! ## C9 — where the four integer literal forms are accepted -/

/-- C9 counterexample: the claim says `loop(0x10)` parses with count 16.
The loop count is parsed by `decimal_integer` (not `integer`), which reads
`0` and leaves `x10)`, so the `)` of the delimiter fails and — being inside
`cut_err` — the whole parse is a hard error; meanwhile the `integer`
combinator used for range numbers does accept `0x10` as 16. -/
theorem C9_counterexample_loop_hex_count :
    loop_count ['(', '0', 'x', '1', '0', ')'] = none ∧
    integer ['0', 'x', '1', '0'] = some (16, []) :=
  ⟨rfl, rfl⟩

/-- C9 amended: the four literal forms (`0x`, `0b`, `0o`, decimal) are
accepted by the `integer` combinator and hence for the three numbers of a
`range`; loop counts and switch-case weights are parsed by
`decimal_integer` and accept only plain decimal literals, so `loop(0x10)`
and a hex switch weight are hard parse errors. -/
theorem C9_amended_literal_forms_not_uniform :
    range_inner (('0' :: 'x' :: '1' :: '0' :: ['.', '.']) ++
        ('0' :: 'b' :: '1' :: '0' :: '0' :: '0' :: '0' :: '0' :: ['.', '.']) ++
        ['0', 'o', '1', '0', '0']) = some ((16, 32, 64), []) ∧
    integer ['0', 'b', '1', '0', '1'] = some (5, []) ∧
    integer ['0', 'o', '1', '7'] = some (15, []) ∧
    integer ['4', '2'] = some (42, []) ∧
    loop_count ['(', '1', '6', ')'] = some (16, []) ∧
    loop_count ['(', '0', 'x', '1', '0', ')'] = none ∧
    loop_count ['(', '0', 'b', '1', '0', ')'] = none ∧
    loop_count ['(', '0', 'o', '1', '0', ')'] = none ∧
    switch_weight ['(', '2', ')', ':'] = some (2, [':']) ∧
    switch_weight ['(', '0', 'x', '2', ')'] = none :=
  ⟨rfl, rfl, rfl, rfl, rfl, rfl, rfl, rfl, rfl, rfl⟩

/-! ## C6 — round-trip of `Range` -/

/-- The `step_by_go` with enough fuel is the arithmetic progression
`start, start + k, …` of `⌈(stop − start) / k⌉` terms. -/
theorem step_by_go_eq_range' (k : Nat) (hk : 0 < k) :
    ∀ (fuel s e : Nat), e - s ≤ fuel →
      step_by_go fuel s e k = List.range' s ((e - s + k - 1) / k) k := by
  intro fuel
  induction fuel with
  | zero =>
    intro s e h
    have he : e - s = 0 := by omega
    rw [step_by_go, he]
    have h0 : (0 + k - 1) / k = 0 := Nat.div_eq_of_lt (by omega)
    rw [h0]
    rfl
  | succ fuel ih =>
    intro s e h
    by_cases hlt : s < e
    · have hd : 1 ≤ e - s := by omega
      have hcount : (e - s + k - 1) / k = (e - (s + k) + k - 1) / k + 1 := by
        by_cases hke : k ≤ e - s
        · have h1 : e - s + k - 1 = (e - s - 1) + k := by omega
          have h2 : e - (s + k) + k - 1 = e - s - 1 := by omega
          rw [h1, h2, Nat.add_div_right _ hk]
        · have h1 : e - s + k - 1 = (e - s - 1) + k := by omega
          have h2 : e - (s + k) = 0 := by omega
          rw [h1, h2, Nat.add_div_right _ hk,
            Nat.div_eq_of_lt (show e - s - 1 < k by omega),
            Nat.div_eq_of_lt (show 0 + k - 1 < k by omega)]
      rw [step_by_go, if_pos hlt, ih (s + k) e (by omega), hcount, List.range'_succ]
    · have he : e - s = 0 := by omega
      rw [step_by_go, if_neg hlt, he]
      have h0 : (0 + k - 1) / k = 0 := Nat.div_eq_of_lt (by omega)
      rw [h0]
      rfl

/-- The `(s..e).step_by(k)` when `k` divides the range length: exactly
`(e − s) / k` terms. -/
theorem step_by_eq_range' (s e k : Nat) (hk : 0 < k) (hdvd : (e - s) % k = 0) :
    step_by s e k = List.range' s ((e - s) / k) k := by
  rw [step_by, step_by_go_eq_range' k hk (e - s) s e (Nat.le_refl _)]
  obtain ⟨q, hq⟩ : ∃ q, e - s = k * q :=
    ⟨(e - s) / k, (Nat.div_mul_cancel (Nat.dvd_of_mod_eq_zero hdvd)).symm.trans
      (Nat.mul_comm _ _)⟩
  rw [hq]
  have h1 : k * q + k - 1 = (k - 1) + q * k := by
    have := Nat.mul_comm k q
    omega
  rw [h1, Nat.add_mul_div_right _ _ hk, Nat.div_eq_of_lt (by omega),
    Nat.mul_div_cancel_left q hk, Nat.zero_add]

/-- C6: for a `Range { start := s, instr_len_bits := L, end := e }` satisfying
the invariants (`s < e`, `L` a positive multiple of 8, `(e − s)` divisible by
`L / 8`), expansion of the trace consisting of that single op emits exactly
`(e − s)·8 / L` addresses, the arithmetic progression
`s, s + L/8, …, e − L/8` in that order. -/
theorem C6_range_roundtrip (name : String) (fns : Functions) (s L e fuel : Nat)
    (h₁ : s < e) (h₂ : 0 < L) (h₃ : L % 8 = 0) (h₄ : (e - s) % (L / 8) = 0)
    (hfuel : 1 ≤ fuel) :
    Trace.intoIter { name := name, functions := fns, block := [Op.Range s L e] } fuel =
      .ok (List.range' s ((e - s) * 8 / L) (L / 8)) := by
  obtain ⟨m, hm⟩ : ∃ m, L = 8 * m := ⟨L / 8, by omega⟩
  have hmpos : 0 < m := by omega
  have hk : L / 8 = m := by omega
  obtain ⟨f, hf⟩ : ∃ f, fuel = f + 1 := ⟨fuel - 1, by omega⟩
  have hcount : (e - s) * 8 / L = (e - s) / m := by
    rw [hm, Nat.mul_comm (e - s) 8, Nat.mul_div_mul_left _ _ (by omega)]
  rw [hf, Trace.intoIter, hcount]
  show run fns (f + 1) [Op.Range s L e] [] (StdRng.seed_from_u64 0) = _
  rw [run]
  simp only [hk]
  rw [if_neg (by omega), step_by_eq_range' s e m hmpos (by rwa [hk] at h₄),
    List.nil_append, run_nil]

/-- C6 witness: scenario S3's range `0x10..32..0x20` expands to the four
32-bit instruction addresses `16, 20, 24, 28`. -/
theorem C6_range_roundtrip_witness :
    Trace.intoIter { name := "y", functions := [], block := [Op.Range 16 32 32] } 1 =
      .ok [16, 20, 24, 28] :=
  C6_range_roundtrip ("y") [] 16 32 32 1 (by omega) (by omega) (by omega) (by omega)
    (by omega)

/-! ## C2 — what the hit/miss counters sum to -/

/-- One instruction of the simulation fold increments exactly one of the two
counters. -/
theorem simulateStep_counts (cache : LruCache) (sim : Simulation) (instr : Instruction)
    (cache2 : LruCache) (sim2 : Simulation)
    (h : simulateStep cache sim instr = some (cache2, sim2)) :
    sim2.hit_count + sim2.miss_count = sim.hit_count + sim.miss_count + 1 := by
  rw [simulateStep] at h
  cases hb : accessBytes cache instr.address (List.range (instr.length / 8)) true with
  | none => rw [hb] at h; exact absurd h (by simp)
  | some p =>
    rw [hb] at h
    obtain ⟨cache3, hit⟩ := p
    cases hit with
    | true =>
      have h' : some (cache3, { sim with hit_count := sim.hit_count + 1 }) =
          some (cache2, sim2) := h
      have h2 := ((Prod.mk.injEq _ _ _ _).mp ((Option.some.injEq _ _).mp h')).2
      rw [← h2]
      show sim.hit_count + 1 + sim.miss_count = sim.hit_count + sim.miss_count + 1
      omega
    | false =>
      have h' : some (cache3, { sim with miss_count := sim.miss_count + 1 }) =
          some (cache2, sim2) := h
      have h2 := ((Prod.mk.injEq _ _ _ _).mp ((Option.some.injEq _ _).mp h')).2
      rw [← h2]
      show sim.hit_count + (sim.miss_count + 1) = sim.hit_count + sim.miss_count + 1
      omega

/-- Over a whole instruction list, the counters grow by exactly the number
of instructions. -/
theorem simulateTrace_counts :
    ∀ (instrs : List Instruction) (cache : LruCache) (sim : Simulation)
      (cache2 : LruCache) (sim2 : Simulation),
      simulateTrace cache sim instrs = some (cache2, sim2) →
      sim2.hit_count + sim2.miss_count = sim.hit_count + sim.miss_count + instrs.length := by
  intro instrs
  induction instrs with
  | nil =>
    intro cache sim cache2 sim2 h
    rw [simulateTrace] at h
    have := (Option.some.injEq _ _).mp h
    rw [← ((Prod.mk.injEq _ _ _ _).mp this).2]
    simp
  | cons instr rest ih =>
    intro cache sim cache2 sim2 h
    rw [simulateTrace] at h
    cases hs : simulateStep cache sim instr with
    | none => rw [hs] at h; exact absurd h (by simp)
    | some p =>
      rw [hs] at h
      obtain ⟨cache3, sim3⟩ := p
      have h1 := simulateStep_counts cache sim instr cache3 sim3 hs
      have h2 := ih cache3 sim3 cache2 sim2 h
      simp only [List.length_cons]
      omega

/-- C2 amended: after the per-trace reset, the final `hit_count + miss_count`
equals the number of **instructions** the expansion yielded — exactly one
increment per instruction — not the number of byte-level `get` calls, which
is `length_bits / 8` per instruction. -/
theorem C2_amended_counters_sum_to_instruction_count (cache : LruCache) (name : String)
    (instrs : List Instruction) (cache2 : LruCache) (sim : Simulation)
    (h : Simulation.simulate cache name instrs = some (cache2, sim)) :
    sim.hit_count + sim.miss_count = instrs.length := by
  have := simulateTrace_counts instrs cache.reset
    { name := name, hit_count := 0, miss_count := 0 } cache2 sim h
  simpa using this

/-- A 2-set, 1-way, 4-bytes-per-line cache (offset width 2, set index width
1), on which the C2 counterexample trace is replayed. -/
def cacheC2 : LruCache :=
  { offset_width := 2, set_index_width := 1, set_index_mask := 1,
    sets := [CacheSet.new 1, CacheSet.new 1] }

/-- The instruction stream of the trace `'x' { 0x10..32..0x20 }`: four
32-bit instructions. -/
def instrsC2 : List Instruction :=
  [{ address := 16, length := 32 }, { address := 20, length := 32 },
   { address := 24, length := 32 }, { address := 28, length := 32 }]

/-- The cache state after replaying `instrsC2` on `cacheC2`. -/
def cacheEndC2 : LruCache :=
  { offset_width := 2, set_index_width := 1, set_index_mask := 1,
    sets := [{ lines := [{ address := some 24, tag := some 3 }], lru := [0] },
             { lines := [{ address := some 28, tag := some 3 }], lru := [0] }] }

/-- The counters after replaying `instrsC2` on `cacheC2`. -/
def simEndC2 : Simulation :=
  { name := "x", hit_count := 0, miss_count := 4 }

/-- C2 counterexample: the trace `'x' { 0x10..32..0x20 }` expands to four
32-bit instructions; simulating them issues `4 · 32/8 = 16` byte-level `get`
calls but leaves `hit_count + miss_count = 4`, so the counters do not sum to
the number of byte-level `get` calls when an instruction is longer than
8 bits. -/
theorem C2_counterexample_counters_vs_byte_calls :
    Trace.intoIterInstr { name := "x", functions := [], block := [Op.Range 16 32 32] } 1 =
      some instrsC2 ∧
    Simulation.simulate cacheC2 ("x") instrsC2 = some (cacheEndC2, simEndC2) ∧
    simEndC2.hit_count + simEndC2.miss_count = 4 ∧
    traceGetCalls instrsC2 = 16 := by
  refine ⟨rfl, ?_, rfl, rfl⟩
  decide

/-- C2 amended, witness: the amended theorem evaluated on the concrete
replay of `instrsC2`. -/
theorem C2_amended_witness :
    Simulation.simulate cacheC2 ("x") instrsC2 = some (cacheEndC2, simEndC2) ∧
    simEndC2.hit_count + simEndC2.miss_count = instrsC2.length :=
  ⟨by decide,
   C2_amended_counters_sum_to_instruction_count cacheC2 ("x") instrsC2 cacheEndC2 simEndC2
     (by decide)⟩

/-! ## C10 — a hit only reorders the LRU order of the indexed set -/

/-- The `LruCache::get` as a bind/map pipeline over the indexed set. -/
theorem LruCache.get_eq (c : LruCache) (address : Nat) :
    c.get address =
      (c.sets[c.setIndexOf address]?).bind (fun s =>
        (s.get address (address >>> (c.set_index_width + c.offset_width))).map
          (fun p => ({ c with sets := c.sets.set (c.setIndexOf address) p.1 }, p.2))) :=
  rfl

/-- The `fillLine` never reports a hit. -/
theorem CacheSet.fillLine_ne_hit (s : CacheSet) (address tag lru_idx : Nat)
    (lru_rest : List Nat) (s2 : CacheSet)
    (h : s.fillLine address tag lru_idx lru_rest = some (s2, .Hit)) : False := by
  rw [CacheSet.fillLine] at h
  cases hline : s.lines[lru_idx]? with
  | none =>
    rw [hline] at h
    exact Option.noConfusion h
  | some prev_line =>
    rw [hline] at h
    have h' : some
        (({ lines := s.lines.set lru_idx { address := some address, tag := some tag },
            lru := lru_rest ++ [lru_idx] } : CacheSet),
          CacheHit.Miss prev_line.address) =
        some (s2, CacheHit.Hit) := h
    exact CacheHit.noConfusion ((Prod.mk.injEq _ _ _ _).mp ((Option.some.injEq _ _).mp h')).2

/-- The `missUpdate` never reports a hit. -/
theorem CacheSet.missUpdate_ne_hit (s : CacheSet) (address tag : Nat) (s2 : CacheSet)
    (h : s.missUpdate address tag = some (s2, .Hit)) : False := by
  rw [CacheSet.missUpdate] at h
  cases hl : s.lru with
  | nil =>
    rw [hl] at h
    exact Option.noConfusion h
  | cons lru_idx lru_rest =>
    rw [hl] at h
    exact CacheSet.fillLine_ne_hit s address tag lru_idx lru_rest s2 h

/-- Hit characterization of `CacheSet::get`: a `Hit` outcome happens exactly
on the found-tag branch, and the state change is moving the found line index
from its position in the LRU order to the back. -/
theorem CacheSet.get_hit (s : CacheSet) (address tag : Nat) (s2 : CacheSet)
    (h : s.get address tag = some (s2, .Hit)) :
    ∃ line_idx line,
      s.lines.enum.find? (fun p => p.2.tag == some tag) = some (line_idx, line) ∧
      line_idx ∈ s.lru ∧
      s2 = { s with lru := s.lru.erase line_idx ++ [line_idx] } := by
  rw [CacheSet.get] at h
  cases hf : s.lines.enum.find? (fun p => p.2.tag == some tag) with
  | none =>
    rw [hf] at h
    exact (CacheSet.missUpdate_ne_hit s address tag s2 h).elim
  | some p =>
    obtain ⟨line_idx, line⟩ := p
    rw [hf] at h
    have h' : s.hitUpdate line_idx = some (s2, CacheHit.Hit) := h
    rw [CacheSet.hitUpdate] at h'
    cases hmem : s.lru.contains line_idx with
    | false =>
      rw [hmem] at h'
      have h'' : (none : Option (CacheSet × CacheHit)) = some (s2, CacheHit.Hit) := h'
      exact Option.noConfusion h''
    | true =>
      rw [hmem] at h'
      have h'' : some ({ s with lru := s.lru.erase line_idx ++ [line_idx] }, CacheHit.Hit) =
          some (s2, CacheHit.Hit) := h'
      have h2 := ((Prod.mk.injEq _ _ _ _).mp ((Option.some.injEq _ _).mp h'')).1
      exact ⟨line_idx, line, rfl, by simpa using hmem, h2.symm⟩

/-- C10: when an access returns `Hit`, the only state change is the LRU
order of the indexed set — the hit way moves to the most-recently-used
(back) position; every line (tag and stored address) of every set is
unchanged, and the LRU orders of all other sets are unchanged. -/
theorem C10_hit_only_reorders_lru (c : LruCache) (address : Nat) (c2 : LruCache)
    (h : c.get address = some (c2, .Hit)) :
    (∀ j : Nat, (c2.sets[j]?).map CacheSet.lines = (c.sets[j]?).map CacheSet.lines) ∧
    (∀ j : Nat, j ≠ c.setIndexOf address → c2.sets[j]? = c.sets[j]?) ∧
    (∃ s line_idx line,
      c.sets[c.setIndexOf address]? = some s ∧
      s.lines.enum.find?
        (fun p => p.2.tag == some (address >>> (c.set_index_width + c.offset_width))) =
        some (line_idx, line) ∧
      line_idx ∈ s.lru ∧
      c2.sets[c.setIndexOf address]? =
        some { s with lru := s.lru.erase line_idx ++ [line_idx] }) := by
  rw [LruCache.get_eq] at h
  obtain ⟨s, hs, hmap⟩ := Option.bind_eq_some.mp h
  obtain ⟨p, hget, hfp⟩ := Option.map_eq_some'.mp hmap
  obtain ⟨s2, hitv⟩ := p
  have hc2 : ({ c with sets := c.sets.set (c.setIndexOf address) s2 } : LruCache) = c2 :=
    ((Prod.mk.injEq _ _ _ _).mp hfp).1
  have hhit : hitv = CacheHit.Hit := ((Prod.mk.injEq _ _ _ _).mp hfp).2
  rw [hhit] at hget
  obtain ⟨line_idx, line, hf, hmem, hs2⟩ := CacheSet.get_hit s address _ s2 hget
  have hlt : c.setIndexOf address < c.sets.length := (List.getElem?_eq_some_iff.mp hs).1
  have hsets : c2.sets = c.sets.set (c.setIndexOf address) s2 := by rw [← hc2]
  refine ⟨?_, ?_, ?_⟩
  · intro j
    rw [hsets, List.getElem?_set]
    by_cases hj : c.setIndexOf address = j
    · rw [if_pos hj, if_pos hlt, ← hj, hs, hs2]
      rfl
    · rw [if_neg hj]
  · intro j hj
    rw [hsets, List.getElem?_set_ne (Ne.symm hj)]
  · refine ⟨s, line_idx, line, hs, hf, hmem, ?_⟩
    rw [hsets, List.getElem?_set_self hlt, hs2]

/-- A one-set, one-way cache whose single line holds tag 0, so that
accessing address 0 hits. -/
def cacheC10 : LruCache :=
  { offset_width := 0, set_index_width := 0, set_index_mask := 0,
    sets := [{ lines := [{ address := some 0, tag := some 0 }], lru := [0] }] }

/-- C10 witness: on `cacheC10`, accessing address 0 is a `Hit` and the frame
conditions of the hit path hold at that input. -/
theorem C10_hit_only_reorders_lru_witness :
    cacheC10.get 0 = some (cacheC10, CacheHit.Hit) ∧
    (∃ s line_idx line,
      cacheC10.sets[cacheC10.setIndexOf 0]? = some s ∧
      s.lines.enum.find?
        (fun p => p.2.tag == some (0 >>> (cacheC10.set_index_width + cacheC10.offset_width))) =
        some (line_idx, line) ∧
      line_idx ∈ s.lru ∧
      cacheC10.sets[cacheC10.setIndexOf 0]? =
        some { s with lru := s.lru.erase line_idx ++ [line_idx] }) :=
  ⟨by decide, (C10_hit_only_reorders_lru cacheC10 0 cacheC10 (by decide)).2.2⟩

/-! ## C8 — inlining a function call preserves the expansion

`OpSim fns op l` relates an op of the original program to the op list that
replaces it in the transformed program: either unchanged, or a call unfolded
to (a transform of) its body, or a loop/switch whose nested blocks are
related.  The expansion work loop is then shown to produce the same address
sequence on related queues, threading the same PRNG. -/

mutual

inductive OpSim (fns : Functions) : Op → List Op → Prop where
  | refl (op : Op) : OpSim fns op [op]
  | call (f : String) (body l : List Op) :
      lookupFn fns f = some body → OpsSim fns body l → OpSim fns (.FunctionCall f) l
  | loop (count : Nat) (b b' : List Op) :
      OpsSim fns b b' → OpSim fns (.Loop count b) [.Loop count b']
  | switch (cs cs' : List (Nat × List Op)) :
      CasesSim fns cs cs' → OpSim fns (.Switch cs) [.Switch cs']

inductive OpsSim (fns : Functions) : List Op → List Op → Prop where
  | nil : OpsSim fns [] []
  | cons (op : Op) (l : List Op) (ops l2 : List Op) :
      OpSim fns op l → OpsSim fns ops l2 → OpsSim fns (op :: ops) (l ++ l2)

inductive CasesSim (fns : Functions) :
    List (Nat × List Op) → List (Nat × List Op) → Prop where
  | nil : CasesSim fns [] []
  | cons (w : Nat) (b b' : List Op) (cs cs' : List (Nat × List Op)) :
      OpsSim fns b b' → CasesSim fns cs cs' → CasesSim fns ((w, b) :: cs) ((w, b') :: cs')

end

/-- Every op list is related to itself. -/
theorem OpsSim_refl (fns : Functions) : ∀ ops : List Op, OpsSim fns ops ops
  | [] => .nil
  | op :: ops => OpsSim.cons op [op] ops ops (OpSim.refl op) (OpsSim_refl fns ops)

/-- Every case list is related to itself. -/
theorem CasesSim_refl (fns : Functions) : ∀ cs : List (Nat × List Op), CasesSim fns cs cs
  | [] => .nil
  | c :: cs => CasesSim.cons c.1 c.2 c.2 cs cs (OpsSim_refl fns c.2) (CasesSim_refl fns cs)

/-- The `OpsSim` is compatible with concatenation. -/
theorem OpsSim_append (fns : Functions) :
    ∀ {a a' b b' : List Op}, OpsSim fns a a' → OpsSim fns b b' →
      OpsSim fns (a ++ b) (a' ++ b')
  | _, _, _, _, .nil, hb => hb
  | _, _, _, _, .cons op l ops l2 hop hops, hb => by
    rw [List.cons_append, List.append_assoc]
    exact OpsSim.cons op l (ops ++ _) (l2 ++ _) hop (OpsSim_append fns hops hb)

/-- The `OpsSim` is compatible with the repeated pushes of a loop body. -/
theorem repeatBlock_sim (fns : Functions) (b b' : List Op) (hb : OpsSim fns b b') :
    ∀ n : Nat, OpsSim fns (repeatBlock n b) (repeatBlock n b')
  | 0 => .nil
  | n + 1 => OpsSim_append fns hb (repeatBlock_sim fns b b' hb n)

/-- Related case lists carry identical `(index, weight)` pairs. -/
theorem CasesSim_casePairsFrom (fns : Functions) :
    ∀ (cs cs' : List (Nat × List Op)), CasesSim fns cs cs' →
      ∀ j : Nat, casePairsFrom j cs = casePairsFrom j cs' := by
  intro cs
  induction cs with
  | nil =>
    intro cs' h j
    cases h
    rfl
  | cons c0 rest ih =>
    intro cs' h j
    cases h with
    | cons w b b' cs1 cs1' hb hcs =>
      rw [casePairsFrom, casePairsFrom, ih cs1' hcs (j + 1)]

/-- Indexing into related case lists: same weight, related blocks. -/
theorem CasesSim_getElem (fns : Functions) :
    ∀ (cs cs' : List (Nat × List Op)), CasesSim fns cs cs' →
      ∀ (i : Nat) (c : Nat × List Op), cs[i]? = some c →
        ∃ c', cs'[i]? = some c' ∧ c'.1 = c.1 ∧ OpsSim fns c.2 c'.2 := by
  intro cs
  induction cs with
  | nil =>
    intro cs' h i c hc
    cases h
    simp at hc
  | cons c0 rest ih =>
    intro cs' h i c hc
    cases h with
    | cons w b b' cs1 cs1' hb hcs =>
      cases i with
      | zero =>
        simp only [List.getElem?_cons_zero] at hc
        obtain rfl := (Option.some.injEq _ _).mp hc
        exact ⟨(w, b'), by simp, rfl, hb⟩
      | succ i2 =>
        simp only [List.getElem?_cons_succ] at hc
        obtain ⟨c', hc', hcw, hcb⟩ := ih cs1' hcs i2 c hc
        exact ⟨c', by simpa [List.getElem?_cons_succ] using hc', hcw, hcb⟩

/-- Relating the function maps of the two programs: same names in the same
order, bodies related by `OpsSim` over the original map. -/
def FnsSim (fns fns2 : Functions) : Prop :=
  List.Forall₂ (fun p q => p.1 = q.1 ∧ OpsSim fns p.2 q.2) fns fns2

/-- Pointwise self-relation of an arbitrary suffix of the function map. -/
theorem FnsSim_aux (fns : Functions) :
    ∀ l : Functions, List.Forall₂ (fun p q => p.1 = q.1 ∧ OpsSim fns p.2 q.2) l l
  | [] => .nil
  | p :: l => .cons ⟨rfl, OpsSim_refl fns p.2⟩ (FnsSim_aux fns l)

/-- The `FnsSim` is reflexive. -/
theorem FnsSim_refl (fns : Functions) : FnsSim fns fns :=
  FnsSim_aux fns fns

/-- Lookup in pointwise-related association lists: both fail, or both
succeed with related bodies. -/
theorem FnsSim_lookup_aux (fns : Functions) (l l2 : Functions)
    (h : List.Forall₂ (fun p q => p.1 = q.1 ∧ OpsSim fns p.2 q.2) l l2) :
    ∀ f : String,
      (lookupFn l f = none ∧ lookupFn l2 f = none) ∨
      (∃ b b', lookupFn l f = some b ∧ lookupFn l2 f = some b' ∧ OpsSim fns b b') := by
  induction h with
  | nil =>
    intro f
    exact Or.inl ⟨rfl, rfl⟩
  | @cons a b l₁ l₂ ha hl ih =>
    intro f
    obtain ⟨n1, b1⟩ := a
    obtain ⟨n2, b2⟩ := b
    obtain ⟨hn, hb⟩ := ha
    rw [show n2 = n1 from hn.symm]
    by_cases hfn : n1 = f
    · exact Or.inr ⟨b1, b2, by rw [lookupFn, if_pos hfn], by rw [lookupFn, if_pos hfn], hb⟩
    · rcases ih f with ⟨h1, h2⟩ | ⟨c1, c2, h1, h2, hc⟩
      · exact Or.inl ⟨by rw [lookupFn, if_neg hfn]; exact h1,
          by rw [lookupFn, if_neg hfn]; exact h2⟩
      · exact Or.inr ⟨c1, c2, by rw [lookupFn, if_neg hfn]; exact h1,
          by rw [lookupFn, if_neg hfn]; exact h2, hc⟩

/-- Lookup in related function maps: both fail, or both succeed with related
bodies. -/
theorem FnsSim_lookup (fns fns2 : Functions) (hf : FnsSim fns fns2) :
    ∀ f : String,
      (lookupFn fns f = none ∧ lookupFn fns2 f = none) ∨
      (∃ b b', lookupFn fns f = some b ∧ lookupFn fns2 f = some b' ∧ OpsSim fns b b') :=
  FnsSim_lookup_aux fns fns fns2 hf

/-- Forward simulation of the expansion work loop: on `OpsSim`-related
queues, with related function maps and the **same** PRNG state, every
completed run of the original is matched by a completed run of the
transformed program with the same address sequence.  The inlined side needs
no step where the original pops a `FunctionCall`, and takes the same step
everywhere else, consuming the PRNG in the same order. -/
theorem run_sim (fns fns2 : Functions) (hf : FnsSim fns fns2) :
    ∀ (n : Nat) (q q2 : List Op) (addrs : List Nat) (rng : StdRng) (res : List Nat),
      OpsSim fns q q2 → run fns n q addrs rng = .ok res →
      ∃ m, run fns2 m q2 addrs rng = .ok res := by
  intro n
  induction n with
  | zero =>
    intro q q2 addrs rng res hsim hrun
    cases hsim with
    | nil =>
      rw [run_nil] at hrun
      exact ⟨0, by rw [run_nil]; exact hrun⟩
    | cons op l ops l2 hop hops => simp [run] at hrun
  | succ n ih =>
    intro q q2 addrs rng res hsim hrun
    cases hsim with
    | nil =>
      rw [run_nil] at hrun
      exact ⟨0, by rw [run_nil]; exact hrun⟩
    | cons op l ops l2 hop hops =>
      cases hop with
      | refl =>
        cases op with
        | Range addr_start addr_size addr_end =>
          by_cases hsz : addr_size / 8 = 0
          · simp [run, hsz] at hrun
          · simp only [run, hsz, if_false, if_neg hsz] at hrun
            obtain ⟨m, hm⟩ := ih ops l2 _ rng res hops hrun
            refine ⟨m + 1, ?_⟩
            rw [List.singleton_append]
            simp only [run, hsz, if_false, if_neg hsz]
            exact hm
        | FunctionCall f =>
          rcases FnsSim_lookup fns fns2 hf f with ⟨hn1, hn2⟩ | ⟨b1, b2, hb1, hb2, hbsim⟩
          · simp [run, hn1] at hrun
          · simp only [run, hb1] at hrun
            obtain ⟨m, hm⟩ := ih (b1 ++ ops) (b2 ++ l2) addrs rng res
              (OpsSim_append fns hbsim hops) hrun
            refine ⟨m + 1, ?_⟩
            rw [List.singleton_append]
            simp only [run, hb2]
            exact hm
        | Loop count block =>
          simp only [run] at hrun
          obtain ⟨m, hm⟩ := ih _ _ _ rng res
            (OpsSim_append fns (OpsSim_refl fns (repeatBlock count block)) hops) hrun
          refine ⟨m + 1, ?_⟩
          rw [List.singleton_append]
          simp only [run]
          exact hm
        | Switch cs =>
          simp only [run] at hrun
          cases hp : pickIndex (sortedWeights cs) 0
              (rng.random_range (totalWeights cs)).1 with
          | none =>
            simp only [hp] at hrun
            obtain ⟨m, hm⟩ := ih ops l2 _ _ res hops hrun
            refine ⟨m + 1, ?_⟩
            rw [List.singleton_append]
            simp only [run, hp]
            exact hm
          | some i =>
            simp only [hp] at hrun
            cases hc : cs[i]? with
            | none => simp [hc] at hrun
            | some c =>
              simp only [hc] at hrun
              obtain ⟨m, hm⟩ := ih (c.2 ++ ops) (c.2 ++ l2) addrs _ res
                (OpsSim_append fns (OpsSim_refl fns c.2) hops) hrun
              refine ⟨m + 1, ?_⟩
              rw [List.singleton_append]
              simp only [run, hp, hc]
              exact hm
      | call f body l hlook hbody =>
        simp only [run, hlook] at hrun
        exact ih (body ++ ops) (l ++ l2) addrs rng res (OpsSim_append fns hbody hops) hrun
      | loop count b b' hb =>
        simp only [run] at hrun
        obtain ⟨m, hm⟩ := ih _ _ _ rng res
          (OpsSim_append fns (repeatBlock_sim fns b b' hb count) hops) hrun
        refine ⟨m + 1, ?_⟩
        rw [List.singleton_append]
        simp only [run]
        exact hm
      | switch cs cs' hcs =>
        simp only [run] at hrun
        have hw : sortedWeights cs' = sortedWeights cs := by
          rw [sortedWeights, sortedWeights, casePairs, casePairs,
            CasesSim_casePairsFrom fns cs cs' hcs 0]
        have hT : totalWeights cs' = totalWeights cs := by
          rw [totalWeights, totalWeights, hw]
        cases hp : pickIndex (sortedWeights cs) 0
            (rng.random_range (totalWeights cs)).1 with
        | none =>
          simp only [hp] at hrun
          obtain ⟨m, hm⟩ := ih ops l2 _ _ res hops hrun
          refine ⟨m + 1, ?_⟩
          rw [List.singleton_append]
          simp only [run, hT, hw, hp]
          exact hm
        | some i =>
          simp only [hp] at hrun
          cases hc : cs[i]? with
          | none => simp [hc] at hrun
          | some c =>
            simp only [hc] at hrun
            obtain ⟨c', hc', hcw, hcb⟩ := CasesSim_getElem fns cs cs' hcs i c hc
            obtain ⟨m, hm⟩ := ih (c.2 ++ ops) (c'.2 ++ l2) addrs _ res
              (OpsSim_append fns hcb hops) hrun
            refine ⟨m + 1, ?_⟩
            rw [List.singleton_append]
            simp only [run, hT, hw, hp, hc']
            exact hm

mutual

/-- One call site to `T` replaced by `body` somewhere in an op list:
either the head op is that call (`here`), or the site is inside the head
op's nested blocks, or it is further down the list. -/
inductive InlineOps (T : String) (body : List Op) : List Op → List Op → Prop where
  | here (rest : List Op) : InlineOps T body (.FunctionCall T :: rest) (body ++ rest)
  | insideLoop (count : Nat) (b b' rest : List Op) :
      InlineOps T body b b' →
      InlineOps T body (.Loop count b :: rest) (.Loop count b' :: rest)
  | insideSwitch (cs cs' : List (Nat × List Op)) (rest : List Op) :
      InlineCases T body cs cs' →
      InlineOps T body (.Switch cs :: rest) (.Switch cs' :: rest)
  | there (op : Op) (ops ops' : List Op) :
      InlineOps T body ops ops' → InlineOps T body (op :: ops) (op :: ops')

/-- One call site to `T` replaced inside one of a switch's case blocks. -/
inductive InlineCases (T : String) (body : List Op) :
    List (Nat × List Op) → List (Nat × List Op) → Prop where
  | here (w : Nat) (b b' : List Op) (cs : List (Nat × List Op)) :
      InlineOps T body b b' → InlineCases T body ((w, b) :: cs) ((w, b') :: cs)
  | there (c : Nat × List Op) (cs cs' : List (Nat × List Op)) :
      InlineCases T body cs cs' → InlineCases T body (c :: cs) (c :: cs')

end

mutual

/-- A single-site inlining is an instance of the simulation relation,
provided `T` really maps to `body`. -/
theorem InlineOps_to_OpsSim {T : String} {body : List Op} (fns : Functions)
    (hT : lookupFn fns T = some body) :
    ∀ {ops ops' : List Op}, InlineOps T body ops ops' → OpsSim fns ops ops'
  | _, _, .here rest =>
    OpsSim.cons (.FunctionCall T) body rest rest
      (OpSim.call T body body hT (OpsSim_refl fns body)) (OpsSim_refl fns rest)
  | _, _, .insideLoop count b b' rest hb =>
    OpsSim.cons (.Loop count b) [.Loop count b'] rest rest
      (OpSim.loop count b b' (InlineOps_to_OpsSim fns hT hb)) (OpsSim_refl fns rest)
  | _, _, .insideSwitch cs cs' rest hcs =>
    OpsSim.cons (.Switch cs) [.Switch cs'] rest rest
      (OpSim.switch cs cs' (InlineCases_to_CasesSim fns hT hcs)) (OpsSim_refl fns rest)
  | _, _, .there op ops ops' hops =>
    OpsSim.cons op [op] ops ops' (OpSim.refl op) (InlineOps_to_OpsSim fns hT hops)

/-- A single-site inlining inside a case list, as `CasesSim`. -/
theorem InlineCases_to_CasesSim {T : String} {body : List Op} (fns : Functions)
    (hT : lookupFn fns T = some body) :
    ∀ {cs cs' : List (Nat × List Op)}, InlineCases T body cs cs' → CasesSim fns cs cs'
  | _, _, .here w b b' cs hb =>
    CasesSim.cons w b b' cs cs (InlineOps_to_OpsSim fns hT hb) (CasesSim_refl fns cs)
  | _, _, .there c cs cs' hcs =>
    CasesSim.cons c.1 c.2 c.2 cs cs' (OpsSim_refl fns c.2)
      (InlineCases_to_CasesSim fns hT hcs)

end

/-- One call site to `T` replaced inside the body of one defined function. -/
inductive FnsInline (T : String) (body : List Op) : Functions → Functions → Prop where
  | here (f : String) (b b' : List Op) (rest : Functions) :
      InlineOps T body b b' → FnsInline T body ((f, b) :: rest) ((f, b') :: rest)
  | there (p : String × List Op) (rest rest' : Functions) :
      FnsInline T body rest rest' → FnsInline T body (p :: rest) (p :: rest')

/-- A single-site inlining in the function map yields related maps. -/
theorem FnsInline_to_FnsSim {T : String} {body : List Op} (fns : Functions)
    (hT : lookupFn fns T = some body) :
    ∀ {l l' : Functions}, FnsInline T body l l' →
      List.Forall₂ (fun p q => p.1 = q.1 ∧ OpsSim fns p.2 q.2) l l' := by
  intro l l' h
  induction h with
  | here f b b' rest hb =>
    exact .cons ⟨rfl, InlineOps_to_OpsSim fns hT hb⟩ (FnsSim_aux fns rest)
  | there p rest rest' hr ih =>
    exact .cons ⟨rfl, OpsSim_refl fns p.2⟩ ih

/-- Relation stating that `t'` is `t` with exactly one call to `T` replaced by the literal op list
`body` of `T`'s body at the call site — either in the trace's own block or
inside the body of one of its defined functions. -/
def InlineTrace (T : String) (body : List Op) (t t' : Trace) : Prop :=
  t.name = t'.name ∧
  ((t.functions = t'.functions ∧ InlineOps T body t.block t'.block) ∨
   (t.block = t'.block ∧ FnsInline T body t.functions t'.functions))

/-- C8: for every trace and every function `T` it defines, replacing any
single call to `T` by the literal op list of `T`'s body at the call site
yields a trace whose expansion is the identical address sequence: whenever
the original expansion completes with a sequence, the inlined trace's
expansion completes with the same sequence (the PRNG being consumed in the
same order), and any sequence the inlined expansion completes with is that
same one. -/
theorem C8_inlining_equivalence (T : String) (body : List Op) (t t' : Trace)
    (hT : lookupFn t.functions T = some body)
    (hinl : InlineTrace T body t t')
    (n : Nat) (addrs : List Nat)
    (hrun : t.intoIter n = .ok addrs) :
    (∃ m, t'.intoIter m = .ok addrs) ∧
    (∀ (m' : Nat) (addrs' : List Nat), t'.intoIter m' = .ok addrs' → addrs' = addrs) := by
  obtain ⟨hname, hcase⟩ := hinl
  have hmain : ∃ m, t'.intoIter m = .ok addrs := by
    cases hcase with
    | inl hm =>
      obtain ⟨hfns, hblock⟩ := hm
      have hfsim : FnsSim t.functions t'.functions := by
        rw [← hfns]
        exact FnsSim_refl t.functions
      have hsim : OpsSim t.functions t.block t'.block :=
        InlineOps_to_OpsSim t.functions hT hblock
      obtain ⟨m, hm2⟩ := run_sim t.functions t'.functions hfsim n t.block t'.block []
        (StdRng.seed_from_u64 0) addrs hsim hrun
      exact ⟨m, hm2⟩
    | inr hm =>
      obtain ⟨hblock, hfi⟩ := hm
      have hfsim : FnsSim t.functions t'.functions :=
        FnsInline_to_FnsSim t.functions hT hfi
      have hsim : OpsSim t.functions t.block t'.block :=
        hblock ▸ OpsSim_refl t.functions t.block
      obtain ⟨m, hm2⟩ := run_sim t.functions t'.functions hfsim n t.block t'.block []
        (StdRng.seed_from_u64 0) addrs hsim hrun
      exact ⟨m, hm2⟩
  refine ⟨hmain, ?_⟩
  intro m' addrs' hrun'
  obtain ⟨m, hm⟩ := hmain
  exact run_ok_unique t'.functions m' m t'.block [] (StdRng.seed_from_u64 0) addrs' addrs
    hrun' hm

/-- The one-function program of the C8 witness. -/
def fnsC8 : Functions := [("f", [Op.Range 0 8 2])]

/-- A trace calling `f()`. -/
def tC8 : Trace := { name := "w", functions := fnsC8, block := [Op.FunctionCall ("f")] }

/-- The same trace with the call inlined. -/
def tC8' : Trace := { name := "w", functions := fnsC8, block := [Op.Range 0 8 2] }

/-- C8 witness: the trace `'w' { f() }` with `fn f() { 0..8..2 }` expands to
`[0, 1]`, and so does the inlined trace `'w' { 0..8..2 }`. -/
theorem C8_inlining_equivalence_witness :
    tC8.intoIter 2 = .ok [0, 1] ∧ (∃ m, tC8'.intoIter m = .ok [0, 1]) :=
  ⟨by decide,
   (C8_inlining_equivalence ("f") [Op.Range 0 8 2] tC8 tC8' rfl
     ⟨rfl, Or.inl ⟨rfl, InlineOps.here []⟩⟩ 2 [0, 1] (by decide)).1⟩

/-! ## C4 — weighted switch-case selection -/

/-- The `insertPair` only permutes. -/
theorem insertPair_perm (p : Nat × Nat) :
    ∀ l : List (Nat × Nat), (insertPair p l).Perm (p :: l) := by
  intro l
  induction l with
  | nil => exact List.Perm.refl _
  | cons q rest ih =>
    rw [insertPair]
    by_cases hle : p.2 ≤ q.2
    · rw [if_pos hle]
    · rw [if_neg hle]
      exact (List.Perm.cons q ih).trans (List.Perm.swap p q rest)

/-- The `sortPairs` only permutes. -/
theorem sortPairs_perm : ∀ l : List (Nat × Nat), (sortPairs l).Perm l := by
  intro l
  induction l with
  | nil => exact List.Perm.refl _
  | cons p rest ih =>
    rw [sortPairs]
    exact (insertPair_perm p (sortPairs rest)).trans (List.Perm.cons p ih)

/-- The selection walk finds an index as soon as the target is at most the
running sum plus the remaining weights; the index comes from the list. -/
theorem pickIndex_some_of_le :
    ∀ (l : List (Nat × Nat)) (s r : Nat), l ≠ [] →
      r ≤ s + (l.map (fun p => p.2)).sum →
      ∃ i, pickIndex l s r = some i ∧ ∃ w, (i, w) ∈ l := by
  intro l
  induction l with
  | nil => intro s r hne _; exact absurd rfl hne
  | cons q rest ih =>
    intro s r _ hle
    obtain ⟨j, w⟩ := q
    by_cases hge : s + w ≥ r
    · exact ⟨j, by rw [pickIndex, if_pos hge], w, List.Mem.head _⟩
    · cases rest with
      | nil =>
        exfalso
        simp only [List.map_cons, List.map_nil, List.sum_cons, List.sum_nil] at hle
        omega
      | cons q2 rest2 =>
        have hle2 : r ≤ (s + w) + ((q2 :: rest2).map (fun p => p.2)).sum := by
          simp only [List.map_cons, List.sum_cons] at hle ⊢
          omega
        obtain ⟨i, hpick, w2, hmem⟩ := ih (s + w) r (by simp) hle2
        exact ⟨i, by rw [pickIndex, if_neg hge]; exact hpick, w2, List.Mem.tail _ hmem⟩

/-- Indices produced by `casePairsFrom j` lie in `[j, j + length)`. -/
theorem casePairsFrom_mem_lt :
    ∀ (cs : List (Nat × List Op)) (j i w : Nat), (i, w) ∈ casePairsFrom j cs →
      i < j + cs.length := by
  intro cs
  induction cs with
  | nil => intro j i w h; exact absurd h (by simp [casePairsFrom])
  | cons c rest ih =>
    intro j i w h
    rw [casePairsFrom] at h
    cases h with
    | head => simp
    | tail _ h2 =>
      have := ih (j + 1) i w h2
      simp only [List.length_cons]
      omega

/-- All case weights zero: all pair weights zero. -/
theorem casePairsFrom_all_zero :
    ∀ (cs : List (Nat × List Op)), (∀ c ∈ cs, c.1 = 0) →
      ∀ (j : Nat), ∀ p ∈ casePairsFrom j cs, p.2 = 0 := by
  intro cs
  induction cs with
  | nil => intro _ j p h; exact absurd h (by simp [casePairsFrom])
  | cons c rest ih =>
    intro hz j p h
    rw [casePairsFrom] at h
    cases h with
    | head => exact hz c (List.Mem.head _)
    | tail _ h2 => exact ih (fun c2 hc => hz c2 (List.Mem.tail _ hc)) (j + 1) p h2

/-- Inserting below everything keeps the list in place. -/
theorem insertPair_of_le (p : Nat × Nat) (l : List (Nat × Nat))
    (h : ∀ q ∈ l, p.2 ≤ q.2) : insertPair p l = p :: l := by
  cases l with
  | nil => rfl
  | cons q rest => rw [insertPair, if_pos (h q (List.Mem.head _))]

/-- A list of all-zero weights is already stably sorted. -/
theorem sortPairs_all_zero :
    ∀ l : List (Nat × Nat), (∀ p ∈ l, p.2 = 0) → sortPairs l = l := by
  intro l
  induction l with
  | nil => intro _; rfl
  | cons p rest ih =>
    intro hz
    rw [sortPairs, ih (fun q hq => hz q (List.Mem.tail _ hq))]
    refine insertPair_of_le p rest (fun q hq => ?_)
    rw [hz p (List.Mem.head _), hz q (List.Mem.tail _ hq)]

/-- C4: for every switch with at least one case, the draw is within `[0, T]`
for `T` the sum of the weights, the walk over the stably-sorted
`(index, weight)` pairs selects exactly one case — an index of one of the
cases, whose block lookup succeeds — namely the first sorted case whose
running weight sum reaches the draw; and when every weight is zero the first
case in source order is selected. -/
theorem C4_switch_selection (cs : List (Nat × List Op)) (rng : StdRng)
    (hne : cs ≠ []) :
    (rng.random_range (totalWeights cs)).1 ≤ totalWeights cs ∧
    (∃ i c, pickIndex (sortedWeights cs) 0
        ((rng.random_range (totalWeights cs)).1) = some i ∧
      i < cs.length ∧ cs[i]? = some c) ∧
    ((∀ c ∈ cs, c.1 = 0) →
      pickIndex (sortedWeights cs) 0
        ((rng.random_range (totalWeights cs)).1) = some 0) := by
  obtain ⟨c0, cs0, hcc⟩ : ∃ c0 cs0, cs = c0 :: cs0 := by
    cases cs with
    | nil => exact absurd rfl hne
    | cons c0 cs0 => exact ⟨c0, cs0, rfl⟩
  refine ⟨?_, ?_, ?_⟩
  · exact Nat.lt_succ_iff.mp (Nat.mod_lt _ (Nat.succ_pos _))
  · have hsne : sortedWeights cs ≠ [] := by
      intro hnil
      have hperm := sortPairs_perm (casePairs cs)
      rw [sortedWeights] at hnil
      rw [hnil] at hperm
      have hce := hperm.symm.eq_nil
      rw [hcc] at hce
      simp only [casePairs, casePairsFrom] at hce
      exact absurd hce (by simp)
    have hsum : ((sortedWeights cs).map (fun p => p.2)).sum = totalWeights cs := rfl
    obtain ⟨i, hpick, w, hmem⟩ := pickIndex_some_of_le (sortedWeights cs) 0
      ((rng.random_range (totalWeights cs)).1) hsne
      (by rw [hsum, Nat.zero_add]
          exact Nat.lt_succ_iff.mp (Nat.mod_lt _ (Nat.succ_pos _)))
    have hmem2 : (i, w) ∈ casePairs cs :=
      ((sortPairs_perm (casePairs cs)).mem_iff).mp hmem
    have hlt : i < cs.length := by
      have := casePairsFrom_mem_lt cs 0 i w hmem2
      omega
    obtain ⟨c, hc⟩ : ∃ c, cs[i]? = some c :=
      ⟨cs[i], (List.getElem?_eq_some_iff).mpr ⟨hlt, rfl⟩⟩
    exact ⟨i, c, hpick, hlt, hc⟩
  · intro hz
    have hpz : ∀ p ∈ casePairs cs, p.2 = 0 := casePairsFrom_all_zero cs hz 0
    have hT : totalWeights cs = 0 := by
      rw [totalWeights, sortedWeights, sortPairs_all_zero _ hpz]
      exact List.sum_eq_zero (by
        intro x hx
        obtain ⟨p, hp, hpx⟩ := List.mem_map.mp hx
        rw [← hpx]
        exact hpz p hp)
    have hr : (rng.random_range (totalWeights cs)).1 = 0 := by
      rw [hT]
      exact Nat.mod_one _
    have hz0 : c0.1 = 0 := by
      rw [hcc] at hz
      exact hz c0 (List.Mem.head _)
    rw [hr, sortedWeights, sortPairs_all_zero _ hpz, hcc]
    simp only [casePairs, casePairsFrom]
    rw [pickIndex, if_pos (by omega)]

/-- The two-case all-zero-weight switch of the C4 witness. -/
def casesC4 : List (Nat × List Op) :=
  [(0, []), (0, [])]

/-- C4 witness: the selection applied to a concrete two-case switch with
all-zero weights and a concrete generator: the draw is in range and the
first case in source order is selected. -/
theorem C4_switch_selection_witness :
    (StdRng.random_range (StdRng.seed_from_u64 0) (totalWeights casesC4)).1 ≤
      totalWeights casesC4 ∧
    (∃ i c, pickIndex (sortedWeights casesC4) 0
        ((StdRng.random_range (StdRng.seed_from_u64 0) (totalWeights casesC4)).1) = some i ∧
      i < casesC4.length ∧ casesC4[i]? = some c) ∧
    ((∀ c ∈ casesC4, c.1 = 0) →
      pickIndex (sortedWeights casesC4) 0
        ((StdRng.random_range (StdRng.seed_from_u64 0) (totalWeights casesC4)).1) = some 0) :=
  C4_switch_selection casesC4 (StdRng.seed_from_u64 0) (List.cons_ne_nil _ _)

end ICacheSim
